import Mathlib

/-!
Shallow embedding of reprozip's packing engine (reprozip/pack.py) and of the
File data type (reprozip/tracer/common.py).

Absolute POSIX paths are modelled as their component lists after the root:
the path /var/www is ["var", "www"] and the root / is [].  rpaths Path
values normalize ., .. and empty components at construction time, which is
modelled by normpath below.
-/

namespace Reprozip

abbrev Path := List String

/-- One step of POSIX normpath over an absolute path: a dot or empty
component vanishes, a dot-dot component removes the last kept component
(a no-op at the root). -/
def normStep (acc : List String) (c : String) : List String :=
  if c = "" ∨ c = "." then acc
  else if c = ".." then acc.dropLast
  else acc ++ [c]

/-- POSIX normpath of an absolute path given by its raw components. -/
def normpath (p : Path) : Path := p.foldl normStep []

/-- reprozip.pack.data_path: computes the filename to store in the archive.
The source computes prefix / filename.split_root()[1] on an rpaths Path
(normalized at construction, per the doctest in the source): the root is
stripped, residual escape segments collapse, and the fixed DATA prefix is
prepended. -/
def data_path (filename : Path) : Path := "DATA" :: normpath filename

/-- A component of a normalized absolute path: not empty, not a dot and not
a dot-dot. -/
def normalComp (c : String) : Bool := decide (c ≠ "" ∧ c ≠ "." ∧ c ≠ "..")

/-- A well-formed absolute path: one already in normal form, as every
rpaths Path value flowing through the program is. -/
def wellFormedAbs (p : Path) : Bool := p.all normalComp

/-- The nonempty prefixes of a path, shortest first; mirrors the
incremental component walks (for c in p.components[1:]) of pack.py, which
visit every prefix of p from the first component up to p itself. -/
def prefixesOf (p : Path) : List Path :=
  (List.range p.length).map (fun i => p.take (i + 1))

/-- reprozip.tracer.common.File: a filesystem object identified by its
absolute path, with an optional size sampled by os.stat at construction
(absent when the object is missing). -/
structure File where
  path : Path
  size : Option Nat
deriving DecidableEq

/-- File.__eq__ from reprozip/tracer/common.py: an isinstance test plus
comparison of the path fields only. -/
def fileEq (a b : File) : Bool := decide (a.path = b.path)

/-- File.__hash__ from reprozip/tracer/common.py: hash(self.path). -/
def fileHash (f : File) : UInt64 := hash f.path

/-- reprozip.tracer.common.Package. -/
structure Package where
  name : String
  version : Option String
  files : List File
  packfiles : Bool
  size : Option Nat
deriving DecidableEq

/-- Modelled from the spec: the access modes of trace observations form a
small enumerated set including "written to" (FILE_WRITE) and "used as
working directory" (FILE_WDIR); the constants live in reprozip.common,
outside the given sources. -/
inductive Mode
  | read
  | write
  | wdir
deriving DecidableEq

/-- The opened_files table of the trace store: (path, access mode) rows. -/
abbrev TraceDB := List (Path × Mode)

/-- A static snapshot of the filesystem seen while packing. -/
structure FS where
  filesOnDisk : List Path
  dirsOnDisk : List Path
deriving DecidableEq

/-- Path.is_dir() against the snapshot. -/
def FS.isDir (fs : FS) (p : Path) : Bool := decide (p ∈ fs.dirsOnDisk)

/-- Path.exists() against the snapshot: true for files and directories. -/
def FS.pexists (fs : FS) (p : Path) : Bool :=
  decide (p ∈ fs.filesOnDisk ∨ p ∈ fs.dirsOnDisk)

/-- The failure outcomes of pack: the two sys.exit(1) precondition errors,
and the uncaught sqlite3.OperationalError raised by list_directories when
the trace store has no opened_files table. -/
inductive PackErr
  | targetExists
  | configMissing
  | noSuchTable
deriving DecidableEq

/-- reprozip.pack.list_directories.  A missing trace store is none:
sqlite3.connect then creates an empty database and the SELECT on
opened_files raises OperationalError (no such table), modelled as the
noSuchTable error.  Python-set deduplication is modelled by List.dedup. -/
def list_directories (database : Option TraceDB) : Except PackErr (List Path) :=
  match database with
  | none => Except.error PackErr.noSuchTable
  | some rows =>
    let executed := rows.filter (fun r => decide (r.2 = Mode.wdir ∨ r.2 = Mode.write))
    Except.ok ((executed.map (fun r => if r.2 = Mode.wdir then r.1 else r.1.dropLast)).dedup)

/-- reprozip.pack.expand_patterns.  Resolving the patterns against the live
filesystem (Path('/').recursedir(pattern) plus path.is_dir()) is external;
the embedding receives the matched directories and matched files.  Python
sets are modelled by deduplicated lists.  File sizes (os.stat inside
File.__init__) are not part of the filesystem model and are recorded as
none; no claim depends on them. -/
def expand_patterns (matchedDirs matchedFiles : List Path) : List File :=
  let dirs := matchedDirs.dedup
  let files := matchedFiles.dedup
  let non_empty_dirs : Path × List Path := ([], (files ++ dirs).flatMap prefixesOf)
  ((dirs.filter (fun d => decide (¬ (d = non_empty_dirs.1 ∨ d ∈ non_empty_dirs.2)))) ++ files).map
    (fun p => { path := p, size := none })

/-- Modelled from the spec: the package identifier
(reprozip.tracer.linux_pkgs.identify_packages) is an external collaborator
that attributes discovered files to installed packages; it is out of scope
and modelled as attributing no file to any package. -/
def identify_packages (files : List File) : List File × List Package := (files, [])

/-- Modelled from the spec: ConfigMerger (reprozip.tracer.trace.merge_files)
is an external collaborator.  Consumed contract: every input File appears
in the output exactly once, attributed to a package if the input or prior
state attributed it, otherwise loose. -/
def merge_files (add_files : List File) (add_packages : List Package)
    (other_files : List File) (packages : List Package) :
    List File × List Package :=
  let packages2 := packages ++ add_packages
  let other2 := other_files ++ add_files.filter (fun f =>
    decide ((∀ p ∈ packages2, ∀ g ∈ p.files, g.path ≠ f.path) ∧
            (∀ g ∈ other_files, g.path ≠ f.path)))
  (other2, packages2)

/-- reprozip.pack.canonicalize_config. -/
def canonicalize_config (runs : List String) (packages : List Package)
    (other_files : List File) (matchedDirs matchedFiles : List Path)
    (sort_packages : Bool) : List String × List Package × List File :=
  let add_files := expand_patterns matchedDirs matchedFiles
  let ap := if sort_packages then identify_packages add_files else (add_files, [])
  let mg := merge_files ap.1 ap.2 other_files packages
  (runs, mg.2, mg.1)

/-- reprozip.pack.PackBuilder: the open tar handle is modelled by the list
of archive names written, in order; seen is the deduplication ledger. -/
structure PackBuilder where
  entries : List Path
  seen : Finset Path

/-- PackBuilder.add: an unconditional tar.add of one object under the given
archive name. -/
def PackBuilder.add (b : PackBuilder) (arcname : Path) : PackBuilder :=
  { b with entries := b.entries ++ [arcname] }

/-- One iteration of the component walk inside PackBuilder.add_data: an
already-seen prefix is skipped, otherwise a non-recursive tar entry is
written under its data_path and the prefix is recorded as seen. -/
def PackBuilder.addDataStep (b : PackBuilder) (path : Path) : PackBuilder :=
  if path ∈ b.seen then b
  else { entries := b.entries ++ [data_path path], seen := insert path b.seen }

/-- PackBuilder.add_data: idempotent ancestor-aware insertion, walking the
prefixes of filename from the root down. -/
def PackBuilder.add_data (b : PackBuilder) (filename : Path) : PackBuilder :=
  if filename ∈ b.seen then b
  else (prefixesOf filename).foldl PackBuilder.addDataStep b

/-- The configuration read by load_config (external codec): run
descriptions are opaque; additional_patterns appear through their
recursedir matches, consumed by expand_patterns. -/
structure Config where
  runs : List String
  packages : List Package
  other_files : List File
  matchedDirs : List Path
  matchedFiles : List Path
deriving DecidableEq

/-- The outcome of a completed pack: the archive entry names in order, the
canonical manifest (pruned packages and loose files) that save_config
writes to METADATA/config.yml, and the logged missing-file warnings. -/
structure PackResult where
  entries : List Path
  packages : List Package
  other_files : List File
  warnings : List Path
deriving DecidableEq

/-- One iteration of the per-file loops of pack: a missing file is warned
about and dropped from the kept list, an existing one is added via
add_data and kept. -/
def packOneFile (fs : FS) : PackBuilder × List Path × List File → File →
    PackBuilder × List Path × List File
  | (tar, warns, kept), f =>
    if fs.pexists f.path then (tar.add_data f.path, warns, kept ++ [f])
    else (tar, warns ++ [f.path], kept)

/-- One iteration of the package loop of pack: a package with packfiles set
has its file list rewritten to the kept files; otherwise it is passed
through untouched. -/
def packOnePackage (fs : FS) : PackBuilder × List Path × List Package → Package →
    PackBuilder × List Path × List Package
  | (tar, warns, done), pkg =>
    if pkg.packfiles then
      let st := pkg.files.foldl (packOneFile fs) (tar, warns, [])
      (st.1, st.2.1, done ++ [{ pkg with files := st.2.2 }])
    else (tar, warns, done ++ [pkg])

/-- reprozip.pack.pack.  target.exists() is the targetExists flag; a
readable config.yml is config = some cfg; a present trace.sqlite3 is
trace = some rows.  The sys.exit(1) calls and the uncaught sqlite error
are the error outcomes; every mutation of the target archive lives in the
ok payload, mirroring that both precondition checks precede the creation
of the PackBuilder in the source. -/
def pack (targetExists : Bool) (config : Option Config) (trace : Option TraceDB)
    (fs : FS) (sort_packages : Bool) : Except PackErr PackResult :=
  if targetExists then Except.error PackErr.targetExists
  else
    match config with
    | none => Except.error PackErr.configMissing
    | some cfg =>
      let canon := canonicalize_config cfg.runs cfg.packages cfg.other_files
        cfg.matchedDirs cfg.matchedFiles sort_packages
      let tar0 : PackBuilder := { entries := [], seen := ∅ }
      let tar1 := if trace.isSome then tar0.add ["METADATA", "trace.sqlite3"] else tar0
      let st1 := canon.2.1.foldl (packOnePackage fs) (tar1, [], [])
      let st2 := canon.2.2.foldl (packOneFile fs) (st1.1, st1.2.1, [])
      match list_directories trace with
      | Except.error e => Except.error e
      | Except.ok dirs =>
        let tar2 := dirs.foldl (fun t d => if fs.isDir d then t.add_data d else t) st2.1
        let tar3 := (tar2.add ["METADATA", "version"]).add ["METADATA", "config.yml"]
        Except.ok { entries := tar3.entries, packages := st1.2.2,
                    other_files := st2.2.2, warnings := st2.2.1 }

def emptyConfig : Config :=
  { runs := [], packages := [], other_files := [], matchedDirs := [], matchedFiles := [] }

def emptyFS : FS := { filesOnDisk := [], dirsOnDisk := [] }

/-! ### Path lemmas -/

theorem mem_prefixesOf {q p : Path} : q ∈ prefixesOf p ↔ q ≠ [] ∧ q <+: p := by
  constructor
  · intro hq
    simp only [prefixesOf, List.mem_map, List.mem_range] at hq
    obtain ⟨i, hi, rfl⟩ := hq
    refine ⟨?_, List.take_prefix _ _⟩
    have hlen : (p.take (i + 1)).length = min (i + 1) p.length := List.length_take _ _
    intro hnil
    rw [hnil] at hlen
    simp at hlen
    omega
  · rintro ⟨hne, hpre⟩
    simp only [prefixesOf, List.mem_map, List.mem_range]
    have hq : q = p.take q.length := List.prefix_iff_eq_take.mp hpre
    have hlen : q.length ≤ p.length := hpre.length_le
    have hpos : 0 < q.length := List.length_pos.mpr hne
    refine ⟨q.length - 1, by omega, ?_⟩
    rw [Nat.sub_add_cancel hpos]
    exact hq.symm

theorem not_mem_foldl_normStep (l : List String) (acc : List String)
    (h : ".." ∉ acc) : ".." ∉ l.foldl normStep acc := by
  induction l generalizing acc with
  | nil => exact h
  | cons c l ih =>
    refine ih _ ?_
    unfold normStep
    by_cases h1 : c = "" ∨ c = "."
    · simpa [h1]
    · by_cases h2 : c = ".."
      · simp only [h1, if_false, h2, if_true]
        exact fun hm => h ((List.dropLast_sublist acc).mem hm)
      · simp only [h1, if_false, h2, if_true]
        intro hm
        rcases List.mem_append.mp hm with hm | hm
        · exact h hm
        · simp at hm
          exact h2 hm.symm

theorem not_dotdot_mem_normpath (p : Path) : ".." ∉ normpath p :=
  not_mem_foldl_normStep p [] (by simp)

theorem foldl_normStep_of_normal (p : Path) (h : ∀ c ∈ p, normalComp c = true) :
    ∀ acc : List String, p.foldl normStep acc = acc ++ p := by
  induction p with
  | nil => intro acc; simp
  | cons c l ih =>
    intro acc
    have hc : normalComp c = true := h c (List.mem_cons_self _ _)
    simp only [normalComp, decide_eq_true_eq] at hc
    have hstep : normStep acc c = acc ++ [c] := by
      unfold normStep
      rw [if_neg (by tauto), if_neg hc.2.2]
    simp only [List.foldl_cons, hstep]
    rw [ih (fun d hd => h d (List.mem_cons_of_mem _ hd))]
    simp

theorem normpath_of_wellFormed (p : Path) (h : wellFormedAbs p = true) :
    normpath p = p := by
  have := foldl_normStep_of_normal p (by simpa [wellFormedAbs, List.all_eq_true] using h) []
  simpa [normpath] using this

theorem data_path_of_wellFormed (p : Path) (h : wellFormedAbs p = true) :
    data_path p = "DATA" :: p := by
  simp [data_path, normpath_of_wellFormed p h]

/-! ### C8: PathMapper never emits an up-level segment -/

/-- Claim C8: for every absolute input path, raw escape segments included,
data_path yields a result rooted at the DATA prefix that contains no
up-level component, and on the two documented examples it returns
DATA/tmp/test and DATA/var/www/index.html. -/
theorem data_path_no_updir :
    (∀ raw : Path, (data_path raw).head? = some "DATA" ∧ ".." ∉ data_path raw) ∧
    data_path ["var", "lib", "..", "..", "..", "..", "tmp", "test"] =
      ["DATA", "tmp", "test"] ∧
    data_path ["var", "lib", "..", "www", "index.html"] =
      ["DATA", "var", "www", "index.html"] := by
  refine ⟨fun raw => ⟨rfl, ?_⟩, by decide, by decide⟩
  intro hm
  rcases List.mem_cons.mp hm with h | h
  · exact absurd h (by decide)
  · exact not_dotdot_mem_normpath raw h

/-! ### C3: PathMapper is injective on well-formed absolute paths -/

/-- Claim C3: data_path is injective: two distinct well-formed absolute
paths (rpaths Path values are normalized, so well-formed means free of
empty, dot and dot-dot components) map to distinct archive paths. -/
theorem data_path_injective_on_wellformed (p q : Path)
    (hp : wellFormedAbs p = true) (hq : wellFormedAbs q = true) (hne : p ≠ q) :
    data_path p ≠ data_path q := by
  rw [data_path_of_wellFormed p hp, data_path_of_wellFormed q hq]
  intro h
  exact hne (by injection h)

/-- Witness for C3 at the concrete pair /etc/hosts and /usr/bin. -/
theorem data_path_injective_witness :
    wellFormedAbs ["etc", "hosts"] = true ∧ wellFormedAbs ["usr", "bin"] = true ∧
    data_path ["etc", "hosts"] ≠ data_path ["usr", "bin"] :=
  ⟨by decide, by decide,
   data_path_injective_on_wellformed _ _ (by decide) (by decide) (by decide)⟩

/-! ### C1: expand_patterns loses every matched directory -/

/-- Every matched directory is a member of the ancestor set it is checked
against (the walk over p.components[1:] ends at p itself), so the
directory part of the expand_patterns result is always empty and the
function returns exactly the matched files. -/
theorem expand_patterns_eq_files (matchedDirs matchedFiles : List Path) :
    expand_patterns matchedDirs matchedFiles =
      matchedFiles.dedup.map (fun p => { path := p, size := none }) := by
  unfold expand_patterns
  have hfilter : matchedDirs.dedup.filter
      (fun d => decide (¬ (d = ([] : Path) ∨
        d ∈ (matchedFiles.dedup ++ matchedDirs.dedup).flatMap prefixesOf))) = [] := by
    rw [List.filter_eq_nil_iff]
    intro d hd
    simp only [decide_eq_true_eq, not_not, Decidable.not_not]
    by_cases hnil : d = ([] : Path)
    · exact Or.inl hnil
    · refine Or.inr (List.mem_flatMap.mpr ⟨d, ?_, ?_⟩)
      · exact List.mem_append.mpr (Or.inr hd)
      · exact mem_prefixesOf.mpr ⟨hnil, List.prefix_refl d⟩
  simp only [hfilter, List.nil_append]

/-- Claim C1 (evaluation at the failing input): a matched directory that
contains no other matched path is nevertheless dropped; the pattern
expansion of a lone empty directory is empty, where the spec and the
source comment require the directory to be kept. -/
theorem expand_patterns_empty_dir_dropped :
    expand_patterns [["empty_dir"]] [] = [] := by decide

/-! ### C5: precondition errors fail before any mutation -/

/-- Claim C5: when the target already exists pack terminates with the
target-exists failure, and when the configuration is missing it terminates
with the config-missing failure; both checks precede the creation of the
PackBuilder, so an error outcome carries no archive mutation at all. -/
theorem pack_precondition_failfast :
    (∀ (config : Option Config) (trace : Option TraceDB) (fs : FS) (sp : Bool),
        pack true config trace fs sp = Except.error PackErr.targetExists) ∧
    (∀ (trace : Option TraceDB) (fs : FS) (sp : Bool),
        pack false none trace fs sp = Except.error PackErr.configMissing) :=
  ⟨fun _ _ _ _ => rfl, fun _ _ _ => rfl⟩

/-! ### C2: a missing trace store aborts pack -/

/-- Claim C2 (counterexample): with a valid configuration and no
trace-record file, pack does not run to completion: it fails with the
sqlite no-such-table error raised when list_directories opens the missing
trace store. -/
theorem pack_missing_trace_fails_concrete :
    pack false (some emptyConfig) none emptyFS false =
      Except.error PackErr.noSuchTable := rfl

/-- Claim C2 (amended): for every configuration and filesystem, packing
without a trace-record file skips the METADATA/trace.sqlite3 copy but then
aborts with the database error from list_directories instead of producing
an archive. -/
theorem pack_missing_trace_errors (cfg : Config) (fs : FS) (sp : Bool) :
    pack false (some cfg) none fs sp = Except.error PackErr.noSuchTable := rfl

/-! ### C9: File equality and hashing depend only on the path -/

/-- Claim C9: File equality holds exactly when the paths coincide, equal
paths also give equal hashes whatever the size fields hold, and distinct
paths give unequal Files. -/
theorem file_eq_hash_path_only (a b : File) :
    (fileEq a b = true ↔ a.path = b.path) ∧
    (a.path = b.path → fileEq a b = true ∧ fileHash a = fileHash b) ∧
    (a.path ≠ b.path → fileEq a b = false) := by
  refine ⟨by simp [fileEq], fun h => ⟨by simp [fileEq, h], by simp [fileHash, h]⟩,
    fun h => by simp [fileEq, h]⟩

/-- Witness for C9: same path with different sizes is equal and hashes
equal; different paths are unequal. -/
theorem file_eq_hash_witness :
    fileEq { path := ["etc", "hosts"], size := some 5 }
      { path := ["etc", "hosts"], size := none } = true ∧
    fileHash { path := ["etc", "hosts"], size := some 5 } =
      fileHash { path := ["etc", "hosts"], size := none } ∧
    fileEq { path := ["etc", "hosts"], size := none }
      { path := ["usr"], size := none } = false :=
  ⟨((file_eq_hash_path_only _ _).2.1 rfl).1,
   ((file_eq_hash_path_only _ _).2.1 rfl).2,
   (file_eq_hash_path_only _ _).2.2 (by decide)⟩

/-! ### C7: TraceDirectoryExtractor -/

/-- Claim C7: on a present trace store, list_directories succeeds and
returns a duplicate-free list whose members are exactly the observed
working directories together with the parents of the written paths. -/
theorem list_directories_spec (rows : TraceDB) (res : List Path)
    (h : list_directories (some rows) = Except.ok res) :
    res.Nodup ∧
    ∀ p : Path, p ∈ res ↔
      ((p, Mode.wdir) ∈ rows ∨ ∃ n : Path, (n, Mode.write) ∈ rows ∧ p = n.dropLast) := by
  simp only [list_directories, Except.ok.injEq] at h
  subst h
  refine ⟨List.nodup_dedup _, fun p => ?_⟩
  rw [List.mem_dedup, List.mem_map]
  constructor
  · rintro ⟨⟨n, m⟩, hmem, hval⟩
    rw [List.mem_filter] at hmem
    obtain ⟨hrow, hmode⟩ := hmem
    simp only [decide_eq_true_eq] at hmode
    cases m with
    | read => simp at hmode
    | write =>
      refine Or.inr ⟨n, hrow, ?_⟩
      simp only [reduceCtorEq, if_false] at hval
      exact hval.symm
    | wdir =>
      simp only [if_true] at hval
      exact Or.inl (hval ▸ hrow)
  · rintro (hw | ⟨n, hn, rfl⟩)
    · exact ⟨(p, Mode.wdir), List.mem_filter.mpr ⟨hw, by simp⟩, by simp⟩
    · exact ⟨(n, Mode.write), List.mem_filter.mpr ⟨hn, by simp⟩, by simp⟩

def rowsExample : TraceDB :=
  [(["home", "user"], Mode.wdir), (["home", "user", "project", "out.txt"], Mode.write)]

def dirsExample : List Path := [["home", "user"], ["home", "user", "project"]]

/-- Witness for C7 at the documented example: a working-directory
observation for /home/user and a write observation for
/home/user/project/out.txt yield exactly home/user and home/user/project. -/
theorem list_directories_witness :
    list_directories (some rowsExample) = Except.ok dirsExample ∧
    dirsExample.Nodup ∧
    (∀ p : Path, p ∈ dirsExample ↔
      ((p, Mode.wdir) ∈ rowsExample ∨
       ∃ n : Path, (n, Mode.write) ∈ rowsExample ∧ p = n.dropLast)) :=
  ⟨rfl, (list_directories_spec rowsExample dirsExample rfl).1,
   (list_directories_spec rowsExample dirsExample rfl).2⟩

/-! ### Builder invariants -/

/-- The seen ledger is closed under nonempty ancestors. -/
def PrefClosed (s : Finset Path) : Prop :=
  ∀ p ∈ s, ∀ q : Path, q <+: p → q ≠ [] → q ∈ s

/-- Every seen path is a well-formed nonempty absolute path. -/
def SeenWF (b : PackBuilder) : Prop :=
  ∀ p ∈ b.seen, wellFormedAbs p = true ∧ p ≠ []

/-- Every seen path already has its archive entry. -/
def SeenSub (b : PackBuilder) : Prop :=
  ∀ p ∈ b.seen, data_path p ∈ b.entries

/-- No entry is followed by a strict ancestor of itself: ancestors are
always emitted before their descendants. -/
def EntriesOrdered (l : List Path) : Prop :=
  l.Pairwise (fun a b => ¬(b <+: a ∧ b ≠ a))

/-- The archive entries written through add_data are exactly one per seen
path, in ancestor-first order. -/
def LedgerExact (b : PackBuilder) : Prop :=
  b.entries.Nodup ∧ b.entries.toFinset = b.seen.image data_path ∧
    EntriesOrdered b.entries

/-- The invariant of a builder used through add_data. -/
def BuilderInv (b : PackBuilder) : Prop := PrefClosed b.seen ∧ SeenWF b

theorem prefixesOf_snoc (l : List String) (a : String) :
    prefixesOf (l ++ [a]) = prefixesOf l ++ [l ++ [a]] := by
  unfold prefixesOf
  rw [List.length_append, List.length_singleton, List.range_succ, List.map_append]
  congr 1
  · refine List.map_congr_left fun i hi => ?_
    rw [List.mem_range] at hi
    exact List.take_append_of_le_length (by omega)
  · simp

theorem wellFormed_of_prefix {p q : Path} (hp : wellFormedAbs p = true)
    (hq : q <+: p) : wellFormedAbs q = true := by
  rw [wellFormedAbs, List.all_eq_true] at hp ⊢
  exact fun c hc => hp c (hq.sublist.mem hc)

theorem prefix_snoc_cases {q l : List String} {a : String}
    (h : q <+: l ++ [a]) : q = l ++ [a] ∨ q <+: l := by
  by_cases hlen : q.length = l.length + 1
  · left
    refine List.IsPrefix.eq_of_length h ?_
    rw [List.length_append, List.length_singleton, hlen]
  · right
    have h1 : q.length ≤ (l ++ [a]).length := h.length_le
    rw [List.length_append, List.length_singleton] at h1
    have h2 : q.length ≤ l.length := by omega
    have hq : q = (l ++ [a]).take q.length := List.prefix_iff_eq_take.mp h
    rw [List.take_append_of_le_length h2] at hq
    exact hq ▸ List.take_prefix _ _

theorem data_path_inj_of_wellFormed {p q : Path} (hp : wellFormedAbs p = true)
    (hq : wellFormedAbs q = true) (h : data_path p = data_path q) : p = q := by
  rw [data_path_of_wellFormed p hp, data_path_of_wellFormed q hq] at h
  injection h

/-- The effect of the component walk of add_data on a builder satisfying
the invariant: the seen ledger grows by exactly the prefixes of the walked
path, entries only get appended, and the exactness of the ledger is
preserved. -/
theorem walk_spec (f : Path) : ∀ b : PackBuilder,
    BuilderInv b → wellFormedAbs f = true →
    BuilderInv ((prefixesOf f).foldl PackBuilder.addDataStep b) ∧
    ((prefixesOf f).foldl PackBuilder.addDataStep b).seen =
      b.seen ∪ (prefixesOf f).toFinset ∧
    (∃ t, ((prefixesOf f).foldl PackBuilder.addDataStep b).entries =
      b.entries ++ t) ∧
    (LedgerExact b → LedgerExact ((prefixesOf f).foldl PackBuilder.addDataStep b)) := by
  induction f using List.reverseRecOn with
  | nil =>
    intro b hb _
    refine ⟨hb, by simp [prefixesOf], ⟨[], by simp [prefixesOf]⟩, fun h => h⟩
  | append_singleton l a ih =>
    intro b hb hwf
    have hwl : wellFormedAbs l = true :=
      wellFormed_of_prefix hwf ⟨[a], rfl⟩
    have hwp : wellFormedAbs (l ++ [a]) = true := hwf
    have hpnil : l ++ [a] ≠ [] := by simp
    rw [prefixesOf_snoc, List.foldl_append]
    obtain ⟨hb', hseen', ⟨t, hent'⟩, hex'⟩ := ih b hb hwl
    set b' := (prefixesOf l).foldl PackBuilder.addDataStep b with hb'def
    have hPsub : ∀ q : Path, q <+: l → q ≠ [] → q ∈ b'.seen := by
      intro q hq hqnil
      rw [hseen']
      exact Finset.mem_union_right _
        (by rw [List.mem_toFinset]; exact mem_prefixesOf.mpr ⟨hqnil, hq⟩)
    have htgt : (prefixesOf l ++ [l ++ [a]]).toFinset =
        (prefixesOf l).toFinset ∪ {l ++ [a]} := by
      rw [List.toFinset_append]; simp
    simp only [List.foldl_cons, List.foldl_nil]
    unfold PackBuilder.addDataStep
    by_cases hp : l ++ [a] ∈ b'.seen
    · rw [if_pos hp]
      refine ⟨hb', ?_, ⟨t, hent'⟩, hex'⟩
      rw [htgt, hseen']
      rw [hseen'] at hp
      ext q
      simp only [Finset.mem_union, Finset.mem_singleton]
      constructor
      · tauto
      · rintro (h | h | rfl)
        · exact Or.inl h
        · exact Or.inr h
        · simpa using hp
    · rw [if_neg hp]
      have hwfseen : ∀ q ∈ b'.seen, wellFormedAbs q = true ∧ q ≠ [] := hb'.2
      refine ⟨⟨?_, ?_⟩, ?_, ⟨t ++ [data_path (l ++ [a])], by rw [hent', List.append_assoc]⟩, ?_⟩
      · -- PrefClosed of the new seen
        intro x hx q hq hqnil
        simp only [Finset.mem_insert] at hx ⊢
        rcases hx with rfl | hx
        · rcases prefix_snoc_cases hq with rfl | hq'
          · exact Or.inl rfl
          · exact Or.inr (hPsub q hq' hqnil)
        · exact Or.inr (hb'.1 x hx q hq hqnil)
      · -- SeenWF of the new seen
        intro x hx
        simp only [Finset.mem_insert] at hx
        rcases hx with rfl | hx
        · exact ⟨hwp, hpnil⟩
        · exact hb'.2 x hx
      · -- seen equation
        rw [htgt, hseen']
        ext q
        simp only [Finset.mem_insert, Finset.mem_union, Finset.mem_singleton]
        tauto
      · -- LedgerExact preservation
        intro hexb
        obtain ⟨hnd, himg, hord⟩ := hex' hexb
        have hnotin : data_path (l ++ [a]) ∉ b'.entries := by
          intro hmem
          have : data_path (l ++ [a]) ∈ b'.seen.image data_path := by
            rw [← himg, List.mem_toFinset]; exact hmem
          obtain ⟨q, hq, hqeq⟩ := Finset.mem_image.mp this
          have : q = l ++ [a] :=
            data_path_inj_of_wellFormed (hwfseen q hq).1 hwp hqeq
          exact hp (this ▸ hq)
        refine ⟨?_, ?_, ?_⟩
        · rw [List.nodup_append]
          exact ⟨hnd, List.nodup_singleton _, by
            intro x hx hx'
            simp only [List.mem_singleton] at hx'
            exact hnotin (hx' ▸ hx)⟩
        · rw [List.toFinset_append, himg, Finset.image_insert,
            show ([data_path (l ++ [a])] : List Path).toFinset =
              {data_path (l ++ [a])} from by simp,
            Finset.insert_eq, Finset.union_comm]
        · rw [EntriesOrdered, List.pairwise_append]
          refine ⟨hord, List.pairwise_singleton _ _, ?_⟩
          intro e he x hx
          simp only [List.mem_singleton] at hx
          subst hx
          rintro ⟨hpre, hne⟩
          have he' : e ∈ b'.seen.image data_path := by
            rw [← himg, List.mem_toFinset]; exact he
          obtain ⟨q, hq, rfl⟩ := Finset.mem_image.mp he'
          have hqwf : wellFormedAbs q = true := (hwfseen q hq).1
          rw [data_path_of_wellFormed _ hwp, data_path_of_wellFormed _ hqwf] at hpre hne
          have hppre : l ++ [a] <+: q := (List.cons_prefix_cons.mp hpre).2
          have hpne : l ++ [a] ≠ q := fun h => hne (h ▸ rfl)
          exact hp (hb'.1 q hq _ hppre hpnil)

/-- The effect of one add_data call under the builder invariant. -/
theorem add_data_spec (b : PackBuilder) (f : Path)
    (hb : BuilderInv b) (hwf : wellFormedAbs f = true) :
    BuilderInv (b.add_data f) ∧
    (b.add_data f).seen = b.seen ∪ (prefixesOf f).toFinset ∧
    (∃ t, (b.add_data f).entries = b.entries ++ t) ∧
    (LedgerExact b → LedgerExact (b.add_data f)) := by
  unfold PackBuilder.add_data
  by_cases hf : f ∈ b.seen
  · rw [if_pos hf]
    refine ⟨hb, ?_, ⟨[], by simp⟩, fun h => h⟩
    ext q
    simp only [Finset.mem_union, List.mem_toFinset]
    constructor
    · exact Or.inl
    · rintro (h | h)
      · exact h
      · obtain ⟨hqnil, hqpre⟩ := mem_prefixesOf.mp h
        exact hb.1 f hf q hqpre hqnil
  · rw [if_neg hf]
    exact walk_spec f b hb hwf

/-- A fresh builder, then a sequence of add_data calls: the state of the
open ArchiveBuilder after any call sequence. -/
def runAdds (calls : List Path) : PackBuilder :=
  calls.foldl PackBuilder.add_data { entries := [], seen := ∅ }

theorem runAdds_aux (calls : List Path) : ∀ b : PackBuilder,
    BuilderInv b → (∀ c ∈ calls, wellFormedAbs c = true) →
    BuilderInv (calls.foldl PackBuilder.add_data b) ∧
    (calls.foldl PackBuilder.add_data b).seen =
      b.seen ∪ (calls.flatMap prefixesOf).toFinset ∧
    (LedgerExact b → LedgerExact (calls.foldl PackBuilder.add_data b)) := by
  induction calls with
  | nil =>
    intro b hb _
    exact ⟨hb, by simp, fun h => h⟩
  | cons c calls ih =>
    intro b hb hwf
    have hwc : wellFormedAbs c = true := hwf c (List.mem_cons_self _ _)
    obtain ⟨hb1, hseen1, _, hex1⟩ := add_data_spec b c hb hwc
    obtain ⟨hb2, hseen2, hex2⟩ :=
      ih (b.add_data c) hb1 (fun d hd => hwf d (List.mem_cons_of_mem _ hd))
    refine ⟨hb2, ?_, fun h => hex2 (hex1 h)⟩
    rw [List.foldl_cons, hseen2, hseen1, List.flatMap_cons, List.toFinset_append,
      Finset.union_assoc]

/-- Claim C4: after any sequence of well-formed add_data calls on one open
builder, the entries written through add_data are duplicate-free, exactly
one per path in the seen ledger (their count equals the ledger size), the
ledger holds exactly the nonempty prefixes of all the calls, and every
ancestor entry precedes its descendants. -/
theorem add_data_ledger_spec (calls : List Path)
    (hwf : ∀ c ∈ calls, wellFormedAbs c = true) :
    (runAdds calls).entries.length = (runAdds calls).seen.card ∧
    (runAdds calls).entries.Nodup ∧
    (runAdds calls).entries.toFinset = (runAdds calls).seen.image data_path ∧
    (runAdds calls).seen = (calls.flatMap prefixesOf).toFinset ∧
    EntriesOrdered (runAdds calls).entries := by
  unfold runAdds
  have hinit : BuilderInv { entries := [], seen := (∅ : Finset Path) } :=
    ⟨fun p hp => by simp at hp, fun p hp => by simp at hp⟩
  have hexinit : LedgerExact { entries := [], seen := (∅ : Finset Path) } :=
    ⟨List.nodup_nil, by simp, List.Pairwise.nil⟩
  obtain ⟨hbinv, hseen, hex⟩ := runAdds_aux calls _ hinit hwf
  obtain ⟨hnd, himg, hord⟩ := hex hexinit
  have hseen' : (List.foldl PackBuilder.add_data
      { entries := [], seen := (∅ : Finset Path) } calls).seen =
      (calls.flatMap prefixesOf).toFinset := by
    rw [hseen]; simp
  refine ⟨?_, hnd, himg, hseen', hord⟩
  rw [← List.toFinset_card_of_nodup hnd, himg]
  exact Finset.card_image_of_injOn fun p hp q hq h =>
    data_path_inj_of_wellFormed (hbinv.2 p hp).1 (hbinv.2 q hq).1 h

/-- Witness for C4: a duplicated call and a sibling call sharing the /usr
ancestor. -/
theorem add_data_ledger_witness :
    (runAdds [["usr", "bin", "env"], ["usr", "bin", "env"], ["usr", "lib"]]).entries.length =
      (runAdds [["usr", "bin", "env"], ["usr", "bin", "env"], ["usr", "lib"]]).seen.card ∧
    (runAdds [["usr", "bin", "env"], ["usr", "bin", "env"], ["usr", "lib"]]).entries.Nodup ∧
    (runAdds [["usr", "bin", "env"], ["usr", "bin", "env"], ["usr", "lib"]]).entries.toFinset =
      (runAdds [["usr", "bin", "env"], ["usr", "bin", "env"], ["usr", "lib"]]).seen.image data_path ∧
    (runAdds [["usr", "bin", "env"], ["usr", "bin", "env"], ["usr", "lib"]]).seen =
      ([["usr", "bin", "env"], ["usr", "bin", "env"], ["usr", "lib"]].flatMap prefixesOf).toFinset ∧
    EntriesOrdered (runAdds [["usr", "bin", "env"], ["usr", "bin", "env"], ["usr", "lib"]]).entries :=
  add_data_ledger_spec _ (by decide)

/-! ### Monotonicity of the builder under its operations -/

theorem addDataStep_seen_sub (b : PackBuilder) (p : Path) :
    b.seen ⊆ (b.addDataStep p).seen := by
  unfold PackBuilder.addDataStep
  by_cases hp : p ∈ b.seen
  · rw [if_pos hp]
  · rw [if_neg hp]
    exact Finset.subset_insert _ _

theorem foldl_addDataStep_seen_sub (ps : List Path) :
    ∀ b : PackBuilder, b.seen ⊆ (ps.foldl PackBuilder.addDataStep b).seen := by
  induction ps with
  | nil => intro b; exact Finset.Subset.refl _
  | cons p ps ih =>
    intro b
    rw [List.foldl_cons]
    exact (addDataStep_seen_sub b p).trans (ih _)

theorem add_data_seen_sub (b : PackBuilder) (f : Path) :
    b.seen ⊆ (b.add_data f).seen := by
  unfold PackBuilder.add_data
  by_cases hf : f ∈ b.seen
  · rw [if_pos hf]
  · rw [if_neg hf]
    exact foldl_addDataStep_seen_sub _ b

theorem add_data_mem_seen (b : PackBuilder) (f : Path) (hf : f ≠ []) :
    f ∈ (b.add_data f).seen := by
  unfold PackBuilder.add_data
  by_cases hfs : f ∈ b.seen
  · rw [if_pos hfs]; exact hfs
  · rw [if_neg hfs]
    rcases List.eq_nil_or_concat f with rfl | ⟨l, a, rfl⟩
    · exact absurd rfl hf
    · rw [List.concat_eq_append, prefixesOf_snoc, List.foldl_append,
        List.foldl_cons, List.foldl_nil]
      by_cases hmem : l ++ [a] ∈ ((prefixesOf l).foldl PackBuilder.addDataStep b).seen
      · rw [PackBuilder.addDataStep, if_pos hmem]; exact hmem
      · rw [PackBuilder.addDataStep, if_neg hmem]; exact Finset.mem_insert_self _ _

theorem seenSub_addDataStep (b : PackBuilder) (p : Path) (h : SeenSub b) :
    SeenSub (b.addDataStep p) := by
  unfold PackBuilder.addDataStep
  by_cases hp : p ∈ b.seen
  · rwa [if_pos hp]
  · rw [if_neg hp]
    intro q hq
    rcases Finset.mem_insert.mp hq with rfl | hq'
    · exact List.mem_append_right _ (List.mem_singleton_self _)
    · exact List.mem_append_left _ (h q hq')

theorem seenSub_foldl_addDataStep (ps : List Path) :
    ∀ b : PackBuilder, SeenSub b → SeenSub (ps.foldl PackBuilder.addDataStep b) := by
  induction ps with
  | nil => exact fun b h => h
  | cons p ps ih =>
    intro b h
    rw [List.foldl_cons]
    exact ih _ (seenSub_addDataStep b p h)

theorem seenSub_add_data (b : PackBuilder) (f : Path) (h : SeenSub b) :
    SeenSub (b.add_data f) := by
  unfold PackBuilder.add_data
  by_cases hf : f ∈ b.seen
  · rwa [if_pos hf]
  · rw [if_neg hf]
    exact seenSub_foldl_addDataStep _ b h

theorem seenSub_add (b : PackBuilder) (a : Path) (h : SeenSub b) :
    SeenSub (b.add a) := by
  intro q hq
  exact List.mem_append_left _ (h q hq)

/-! ### The per-file and per-package loops of pack -/

theorem packFiles_spec (fs : FS) (files : List File) :
    ∀ (tar : PackBuilder) (warns : List Path) (kept : List File),
    (files.foldl (packOneFile fs) (tar, warns, kept)).2.2 =
      kept ++ files.filter (fun f => fs.pexists f.path) ∧
    (files.foldl (packOneFile fs) (tar, warns, kept)).2.1 =
      warns ++ (files.filter (fun f => !fs.pexists f.path)).map File.path ∧
    tar.seen ⊆ (files.foldl (packOneFile fs) (tar, warns, kept)).1.seen ∧
    (SeenSub tar → SeenSub (files.foldl (packOneFile fs) (tar, warns, kept)).1) ∧
    (∀ f ∈ files, fs.pexists f.path = true → f.path ≠ [] →
      f.path ∈ (files.foldl (packOneFile fs) (tar, warns, kept)).1.seen) := by
  induction files with
  | nil =>
    intro tar warns kept
    exact ⟨by simp, by simp, Finset.Subset.refl _, fun h => h, by simp⟩
  | cons f files ih =>
    intro tar warns kept
    rw [List.foldl_cons]
    cases hex : fs.pexists f.path with
    | true =>
      have hstep : packOneFile fs (tar, warns, kept) f =
          (tar.add_data f.path, warns, kept ++ [f]) := by
        simp [packOneFile, hex]
      rw [hstep]
      obtain ⟨h1, h2, h3, h4, h5⟩ := ih (tar.add_data f.path) warns (kept ++ [f])
      refine ⟨?_, ?_, ?_, ?_, ?_⟩
      · rw [h1]
        simp [hex, List.append_assoc]
      · rw [h2]
        simp [hex]
      · exact (add_data_seen_sub tar f.path).trans h3
      · exact fun h => h4 (seenSub_add_data tar f.path h)
      · intro g hg hgex hgnil
        rcases List.mem_cons.mp hg with rfl | hg'
        · exact h3 (add_data_mem_seen tar g.path hgnil)
        · exact h5 g hg' hgex hgnil
    | false =>
      have hstep : packOneFile fs (tar, warns, kept) f =
          (tar, warns ++ [f.path], kept) := by
        simp [packOneFile, hex]
      rw [hstep]
      obtain ⟨h1, h2, h3, h4, h5⟩ := ih tar (warns ++ [f.path]) kept
      refine ⟨?_, ?_, h3, h4, ?_⟩
      · rw [h1]
        simp [hex]
      · rw [h2]
        simp [hex, List.append_assoc]
      · intro g hg hgex hgnil
        rcases List.mem_cons.mp hg with rfl | hg'
        · rw [hex] at hgex
          exact absurd hgex (by simp)
        · exact h5 g hg' hgex hgnil

theorem packPackages_spec (fs : FS) (pkgs : List Package) :
    ∀ (tar : PackBuilder) (warns : List Path) (done : List Package),
    (pkgs.foldl (packOnePackage fs) (tar, warns, done)).2.2 =
      done ++ pkgs.map (fun pkg => if pkg.packfiles then
        { pkg with files := pkg.files.filter (fun f => fs.pexists f.path) } else pkg) ∧
    (∃ w, (pkgs.foldl (packOnePackage fs) (tar, warns, done)).2.1 = warns ++ w) ∧
    tar.seen ⊆ (pkgs.foldl (packOnePackage fs) (tar, warns, done)).1.seen ∧
    (SeenSub tar → SeenSub (pkgs.foldl (packOnePackage fs) (tar, warns, done)).1) ∧
    (∀ pkg ∈ pkgs, pkg.packfiles = true → ∀ f ∈ pkg.files,
      (fs.pexists f.path = false →
        f.path ∈ (pkgs.foldl (packOnePackage fs) (tar, warns, done)).2.1) ∧
      (fs.pexists f.path = true → f.path ≠ [] →
        f.path ∈ (pkgs.foldl (packOnePackage fs) (tar, warns, done)).1.seen)) := by
  induction pkgs with
  | nil =>
    intro tar warns done
    exact ⟨by simp, ⟨[], by simp⟩, Finset.Subset.refl _, fun h => h, by simp⟩
  | cons pkg pkgs ih =>
    intro tar warns done
    rw [List.foldl_cons]
    cases hpf : pkg.packfiles with
    | true =>
      have hstep : packOnePackage fs (tar, warns, done) pkg =
          ((pkg.files.foldl (packOneFile fs) (tar, warns, [])).1,
           (pkg.files.foldl (packOneFile fs) (tar, warns, [])).2.1,
           done ++ [{ pkg with
             files := (pkg.files.foldl (packOneFile fs) (tar, warns, [])).2.2 }]) := by
        simp [packOnePackage, hpf]
      rw [hstep]
      obtain ⟨hf1, hf2, hf3, hf4, hf5⟩ := packFiles_spec fs pkg.files tar warns []
      obtain ⟨h1, ⟨w, h2⟩, h3, h4, h5⟩ :=
        ih (pkg.files.foldl (packOneFile fs) (tar, warns, [])).1
          (pkg.files.foldl (packOneFile fs) (tar, warns, [])).2.1
          (done ++ [{ pkg with
            files := (pkg.files.foldl (packOneFile fs) (tar, warns, [])).2.2 }])
      refine ⟨?_, ?_, ?_, ?_, ?_⟩
      · rw [h1, hf1]
        simp [hpf, List.append_assoc]
      · exact ⟨(pkg.files.filter (fun f => !fs.pexists f.path)).map File.path ++ w,
          by rw [h2, hf2, List.append_assoc]⟩
      · exact hf3.trans h3
      · exact fun h => h4 (hf4 h)
      · intro pkg2 hpkg2 hpf2 f hfmem
        rcases List.mem_cons.mp hpkg2 with rfl | hpkg2'
        · constructor
          · intro hmiss
            rw [h2]
            refine List.mem_append_left _ ?_
            rw [hf2]
            refine List.mem_append_right _ ?_
            exact List.mem_map_of_mem File.path
              (List.mem_filter.mpr ⟨hfmem, by simp [hmiss]⟩)
          · intro hex hnil
            exact h3 (hf5 f hfmem hex hnil)
        · exact h5 pkg2 hpkg2' hpf2 f hfmem
    | false =>
      have hstep : packOnePackage fs (tar, warns, done) pkg =
          (tar, warns, done ++ [pkg]) := by
        simp [packOnePackage, hpf]
      rw [hstep]
      obtain ⟨h1, hw, h3, h4, h5⟩ := ih tar warns (done ++ [pkg])
      refine ⟨?_, hw, h3, h4, ?_⟩
      · rw [h1]
        simp [hpf, List.append_assoc]
      · intro pkg2 hpkg2 hpf2 f hfmem
        rcases List.mem_cons.mp hpkg2 with rfl | hpkg2'
        · rw [hpf] at hpf2
          exact absurd hpf2 (by simp)
        · exact h5 pkg2 hpkg2' hpf2 f hfmem

theorem packDirs_spec (fs : FS) (dirs : List Path) :
    ∀ tar : PackBuilder,
    tar.seen ⊆
      (dirs.foldl (fun t d => if fs.isDir d then t.add_data d else t) tar).seen ∧
    (SeenSub tar →
      SeenSub (dirs.foldl (fun t d => if fs.isDir d then t.add_data d else t) tar)) := by
  induction dirs with
  | nil => exact fun tar => ⟨Finset.Subset.refl _, fun h => h⟩
  | cons d dirs ih =>
    intro tar
    rw [List.foldl_cons]
    by_cases hd : fs.isDir d = true
    · rw [if_pos hd]
      exact ⟨(add_data_seen_sub tar d).trans (ih _).1,
        fun h => (ih _).2 (seenSub_add_data tar d h)⟩
    · rw [if_neg hd]
      exact ih tar

/-! ### Characterization of a completed pack -/

theorem canonicalize_config_nil (runs : List String) (packages : List Package)
    (other_files : List File) :
    canonicalize_config runs packages other_files [] [] false =
      (runs, packages, other_files) := by
  simp [canonicalize_config, merge_files, expand_patterns]

/-- When pack completes with no additional patterns and without package
sorting, the canonical packages are the input ones with exactly the
missing files pruned from every packfiles package, warnings cover the
pruned files, and every existing file of such a package has its archive
entry. -/
theorem pack_ok_spec (cfg : Config) (trace : Option TraceDB) (fs : FS)
    (r : PackResult) (hd : cfg.matchedDirs = []) (hf : cfg.matchedFiles = [])
    (hok : pack false (some cfg) trace fs false = Except.ok r) :
    r.packages = cfg.packages.map (fun pkg => if pkg.packfiles then
      { pkg with files := pkg.files.filter (fun f => fs.pexists f.path) } else pkg) ∧
    (∀ pkg ∈ cfg.packages, pkg.packfiles = true → ∀ f ∈ pkg.files,
      (fs.pexists f.path = false → f.path ∈ r.warnings) ∧
      (fs.pexists f.path = true → f.path ≠ [] → data_path f.path ∈ r.entries)) := by
  simp only [pack, hd, hf, canonicalize_config_nil, Bool.false_eq_true,
    if_false] at hok
  cases htr : list_directories trace with
  | error e =>
    rw [htr] at hok
    simp at hok
  | ok dirs =>
    rw [htr] at hok
    simp only [Except.ok.injEq] at hok
    subst hok
    set tar1 : PackBuilder :=
      if trace.isSome then PackBuilder.add { entries := [], seen := ∅ }
        ["METADATA", "trace.sqlite3"] else { entries := [], seen := ∅ } with htar1
    have hsub1 : SeenSub tar1 := by
      cases trace <;> intro p hp <;>
        simp [htar1, PackBuilder.add, Option.isSome] at hp
    obtain ⟨h1, _, h3, h4, h5⟩ := packPackages_spec fs cfg.packages tar1 [] []
    obtain ⟨hg1, hg2, hg3, hg4, hg5⟩ := packFiles_spec fs cfg.other_files
      (cfg.packages.foldl (packOnePackage fs) (tar1, [], [])).1
      (cfg.packages.foldl (packOnePackage fs) (tar1, [], [])).2.1 []
    obtain ⟨hd1, hd2⟩ := packDirs_spec fs dirs
      (cfg.other_files.foldl (packOneFile fs)
        ((cfg.packages.foldl (packOnePackage fs) (tar1, [], [])).1,
         (cfg.packages.foldl (packOnePackage fs) (tar1, [], [])).2.1, [])).1
    refine ⟨?_, ?_⟩
    · show (cfg.packages.foldl (packOnePackage fs) (tar1, [], [])).2.2 = _
      rw [h1]
      simp
    intro pkg hpkg hpf f hfmem
    constructor
    · intro hmiss
      show f.path ∈ (cfg.other_files.foldl (packOneFile fs) _).2.1
      rw [hg2]
      exact List.mem_append_left _ ((h5 pkg hpkg hpf f hfmem).1 hmiss)
    · intro hex hnil
      have hseen : f.path ∈ (cfg.other_files.foldl (packOneFile fs)
          ((cfg.packages.foldl (packOnePackage fs) (tar1, [], [])).1,
           (cfg.packages.foldl (packOnePackage fs) (tar1, [], [])).2.1, [])).1.seen :=
        hg3 ((h5 pkg hpkg hpf f hfmem).2 hex hnil)
      have hseen2 := hd1 hseen
      have hsubfin : SeenSub ((((dirs.foldl
          (fun t d => if fs.isDir d then t.add_data d else t)
          (cfg.other_files.foldl (packOneFile fs)
            ((cfg.packages.foldl (packOnePackage fs) (tar1, [], [])).1,
             (cfg.packages.foldl (packOnePackage fs) (tar1, [], [])).2.1, [])).1).add
          ["METADATA", "version"]).add ["METADATA", "config.yml"])) :=
        seenSub_add _ _ (seenSub_add _ _ (hd2 (hg4 (h4 hsub1))))
      exact hsubfin f.path hseen2

/-! ### C6: packfiles packages are pruned, warned about and packed -/

/-- Claim C6: when pack completes (no additional patterns, no package
sorting), a package with packfiles keeps exactly its files existing on
disk, every missing file of it is warned about, and every existing file
of it has its archive entry under data_path. -/
theorem pack_packfiles_prune_spec (cfg : Config) (trace : Option TraceDB)
    (fs : FS) (r : PackResult) (i : Nat) (pkg : Package)
    (hd : cfg.matchedDirs = []) (hf : cfg.matchedFiles = [])
    (hok : pack false (some cfg) trace fs false = Except.ok r)
    (hp : cfg.packages[i]? = some pkg) (hpf : pkg.packfiles = true) :
    r.packages[i]? = some { pkg with
      files := pkg.files.filter (fun f => fs.pexists f.path) } ∧
    (∀ f ∈ pkg.files, fs.pexists f.path = false → f.path ∈ r.warnings) ∧
    (∀ f ∈ pkg.files, fs.pexists f.path = true → f.path ≠ [] →
      data_path f.path ∈ r.entries) := by
  obtain ⟨hpkgs, hmem⟩ := pack_ok_spec cfg trace fs r hd hf hok
  have hpkmem : pkg ∈ cfg.packages := List.getElem?_mem hp
  refine ⟨?_, fun f hfm => (hmem pkg hpkmem hpf f hfm).1,
    fun f hfm => (hmem pkg hpkmem hpf f hfm).2⟩
  rw [hpkgs, List.getElem?_map, hp]
  simp [hpf]

def pkgExample : Package :=
  { name := "coreutils", version := some "8.0", files :=
      [{ path := ["bin", "ls"], size := some 100 },
       { path := ["bin", "missing"], size := none }],
    packfiles := true, size := some 1000 }

def cfgExample : Config :=
  { runs := [], packages := [pkgExample], other_files := [],
    matchedDirs := [], matchedFiles := [] }

def fsExample : FS :=
  { filesOnDisk := [["bin", "ls"]], dirsOnDisk := [["bin"]] }

def resExample : PackResult :=
  { entries := [["METADATA", "trace.sqlite3"], ["DATA", "bin"],
      ["DATA", "bin", "ls"], ["METADATA", "version"], ["METADATA", "config.yml"]],
    packages := [{ pkgExample with
      files := [{ path := ["bin", "ls"], size := some 100 }] }],
    other_files := [], warnings := [["bin", "missing"]] }

/-- Witness for C6 at the documented example: a package holding /bin/ls
(existing) and /bin/missing (absent) keeps only /bin/ls, a warning records
/bin/missing, the archive holds DATA/bin/ls and nothing for
/bin/missing. -/
theorem pack_packfiles_prune_witness :
    pack false (some cfgExample) (some []) fsExample false =
      Except.ok resExample ∧
    resExample.packages[0]? = some { pkgExample with
      files := pkgExample.files.filter (fun f => fsExample.pexists f.path) } ∧
    (["bin", "missing"] : Path) ∈ resExample.warnings ∧
    (["DATA", "bin", "ls"] : Path) ∈ resExample.entries ∧
    (["DATA", "bin", "missing"] : Path) ∉ resExample.entries := by
  have hok : pack false (some cfgExample) (some []) fsExample false =
      Except.ok resExample := rfl
  have h := pack_packfiles_prune_spec cfgExample (some []) fsExample resExample
    0 pkgExample rfl rfl hok rfl rfl
  refine ⟨hok, h.1, ?_, ?_, by decide⟩
  · exact h.2.1 { path := ["bin", "missing"], size := none } (by decide) (by decide)
  · have := h.2.2 { path := ["bin", "ls"], size := some 100 } (by decide)
      (by decide) (by decide)
    simpa [data_path, normpath, normStep] using this

/-! ### C10: packages without packfiles are left untouched -/

/-- Claim C10: when pack completes (no additional patterns, no package
sorting), a package whose packfiles flag is off reappears in the canonical
manifest at its position completely unchanged, whatever its files'
existence on disk. -/
theorem pack_nonpackfiles_frame (cfg : Config) (trace : Option TraceDB)
    (fs : FS) (r : PackResult) (i : Nat) (pkg : Package)
    (hd : cfg.matchedDirs = []) (hf : cfg.matchedFiles = [])
    (hok : pack false (some cfg) trace fs false = Except.ok r)
    (hp : cfg.packages[i]? = some pkg) (hpf : pkg.packfiles = false) :
    r.packages[i]? = some pkg := by
  obtain ⟨hpkgs, _⟩ := pack_ok_spec cfg trace fs r hd hf hok
  rw [hpkgs, List.getElem?_map, hp]
  simp [hpf]

def pkgFrozen : Package :=
  { name := "glibc", version := none,
    files := [{ path := ["lib", "libc.so"], size := none }],
    packfiles := false, size := none }

def cfgFrozen : Config :=
  { runs := [], packages := [pkgFrozen], other_files := [],
    matchedDirs := [], matchedFiles := [] }

def resFrozen : PackResult :=
  { entries := [["METADATA", "trace.sqlite3"], ["METADATA", "version"],
      ["METADATA", "config.yml"]],
    packages := [pkgFrozen], other_files := [], warnings := [] }

/-- Witness for C10: a non-packfiles package whose single file is missing
on disk comes out of pack byte-identical. -/
theorem pack_nonpackfiles_witness :
    pack false (some cfgFrozen) (some []) emptyFS false = Except.ok resFrozen ∧
    resFrozen.packages[0]? = some pkgFrozen :=
  ⟨rfl, pack_nonpackfiles_frame cfgFrozen (some []) emptyFS resFrozen 0 pkgFrozen
    rfl rfl rfl rfl rfl⟩

end Reprozip
